import Mathlib

set_option maxHeartbeats 1000000

/-!
Verification of the SSZ-style serialization and Merkle-commitment engine
described by the repository's specification, together with the small Go
helpers that are present in the source tree (PreAllocatedWriter, Server.Feed,
MockValidatorRegistry.Limit).

The codec itself (encode / decode / hashTreeRoot) is modelled from the spec:
the repository's source contains only the benchmark harness that calls the
codec libraries, not the codec code, so the engine below is a faithful
shallow embedding of the spec's algorithm descriptions (sections 3, 4, 6, 7).
Machine bytes are Nat values below 256, byte strings are List Nat, and the
cryptographic hash is modelled as a free binary constructor, so hash equality
is structural equality of hash trees.
-/

namespace SSZ

/-- Modelled from the spec: the error taxonomy of section 7
(CapacityExceeded, TruncatedInput, MalformedOffsetTable,
InvalidBitlistSentinel, LengthMismatch), plus an overflow error for a
variable-field offset that does not fit in its 4 little-endian bytes. -/
inductive Err where
  | capacityExceeded
  | truncated
  | lengthMismatch
  | malformedOffsets
  | invalidSentinel
  | offsetOverflow
  deriving DecidableEq, Repr

/-- Modelled from the spec: the type-descriptor model of section 3, a
tagged-variant tree (Basic, Vector, List, Bitvector, Bitlist, Container). -/
inductive Descr where
  | basic (w : Nat)
  | vector (e : Descr) (n : Nat)
  | list (e : Descr) (cap : Nat)
  | bitvector (n : Nat)
  | bitlist (cap : Nat)
  | container (fields : List Descr)

/-- Modelled from the spec: runtime values shaped by descriptors. -/
inductive Value where
  | basic (w : Nat) (x : Nat)
  | vector (vs : List Value)
  | list (vs : List Value)
  | bitvector (bs : List Bool)
  | bitlist (bs : List Bool)
  | container (vs : List Value)

/-- Little-endian byte representation, `w` bytes. -/
def leBytes : Nat → Nat → List Nat
  | 0, _ => []
  | w + 1, x => x % 256 :: leBytes w (x / 256)

/-- Read a little-endian byte string back as a number. -/
def fromLeBytes : List Nat → Nat
  | [] => 0
  | b :: bs => b + 256 * fromLeBytes bs

mutual

/-- Modelled from the spec: `isFixedSize` descriptor query (section 4.1).
Lists and Bitlists are never fixed-size; a Container is fixed-size iff all
of its fields are. -/
def isFixedSize : Descr → Bool
  | .basic _ => true
  | .vector e _ => isFixedSize e
  | .list _ _ => false
  | .bitvector _ => true
  | .bitlist _ => false
  | .container ds => allFixed ds

/-- All descriptors in the list are fixed-size. -/
def allFixed : List Descr → Bool
  | [] => true
  | d :: ds => isFixedSize d && allFixed ds

end

mutual

/-- Modelled from the spec: `fixedByteLength` descriptor query (section 4.1),
meaningful for fixed-size descriptors. -/
def fixedByteLength : Descr → Nat
  | .basic w => w
  | .vector e n => n * fixedByteLength e
  | .list _ _ => 0
  | .bitvector n => (n + 7) / 8
  | .bitlist _ => 0
  | .container ds => sumFixedLen ds

/-- Sum of the fields' fixed byte lengths. -/
def sumFixedLen : List Descr → Nat
  | [] => 0
  | d :: ds => fixedByteLength d + sumFixedLen ds

end

/-- Bytes a field occupies in a container's fixed part: its own encoding if
it is fixed-size, otherwise a 4-byte offset. -/
def slotLen (d : Descr) : Nat := if isFixedSize d then fixedByteLength d else 4

/-- Total fixed-part length of a field list. -/
def sumSlotLens (ds : List Descr) : Nat := (ds.map slotLen).sum

mutual

/-- Structural size of a descriptor, used as recursion fuel. -/
def dsize : Descr → Nat
  | .basic _ => 1
  | .vector e _ => dsize e + 1
  | .list e _ => dsize e + 1
  | .bitvector _ => 1
  | .bitlist _ => 1
  | .container ds => dlsize ds + 1

/-- Structural size of a descriptor list. -/
def dlsize : List Descr → Nat
  | [] => 0
  | d :: ds => dsize d + dlsize ds

end

mutual

/-- Well-formed descriptor: basic scalars have width 1, 2, 4 or 8
(spec section 3), and a List of fixed-size elements has elements of
positive size (otherwise the element count is not recoverable from the
byte length). -/
def validDescr : Descr → Bool
  | .basic w => w == 1 || w == 2 || w == 4 || w == 8
  | .vector e _ => validDescr e
  | .list e _ => validDescr e && (!isFixedSize e || decide (0 < fixedByteLength e))
  | .bitvector _ => true
  | .bitlist _ => true
  | .container ds => allValid ds

/-- All descriptors in the list are well-formed. -/
def allValid : List Descr → Bool
  | [] => true
  | d :: ds => validDescr d && allValid ds

end

mutual

/-- Modelled from the spec: a value conforms to a descriptor (section 3
invariants): matching shape, basic values within their width, Vector and
Bitvector lengths exact, List and Bitlist lengths at most the capacity. -/
def conforms : Descr → Value → Bool
  | .basic w, .basic w' x => w == w' && decide (x < 256 ^ w)
  | .vector e n, .vector vs => vs.length == n && conformsSeq e vs
  | .list e cap, .list vs => decide (vs.length ≤ cap) && conformsSeq e vs
  | .bitvector n, .bitvector bs => bs.length == n
  | .bitlist cap, .bitlist bs => decide (bs.length ≤ cap)
  | .container ds, .container vs => conformsFields ds vs
  | _, _ => false

/-- Every element of the sequence conforms to the element descriptor. -/
def conformsSeq : Descr → List Value → Bool
  | _, [] => true
  | e, v :: vs => conforms e v && conformsSeq e vs

/-- Fields conform pointwise to the field descriptors, same count. -/
def conformsFields : List Descr → List Value → Bool
  | [], [] => true
  | d :: ds, v :: vs => conforms d v && conformsFields ds vs
  | _, _ => false

end

/-! ### Bit packing (spec section 4.2 steps 4 and 5) -/

/-- A byte from up to 8 bits, low-bit-first: bit i of the list lands at
bit i of the byte. -/
def byteOfBits : List Bool → Nat
  | [] => 0
  | b :: rest => (if b then 1 else 0) + 2 * byteOfBits rest

/-- The low `k` bits of a number, low-bit-first. -/
def bitsOfNat : Nat → Nat → List Bool
  | 0, _ => []
  | k + 1, x => decide (x % 2 = 1) :: bitsOfNat k (x / 2)

/-- The 8 bits of a byte, low-bit-first. -/
def bitsOfByte (b : Nat) : List Bool := bitsOfNat 8 b

/-- Pack a bit sequence into bytes, 8 bits per byte, low-bit-first; the
final partial byte is zero-padded in its unused high bits. Fuel-indexed so
the definition is structural (the fuel is the list length). -/
def packBitsF : Nat → List Bool → List Nat
  | 0, _ => []
  | _ + 1, [] => []
  | fuel + 1, b :: rest =>
    byteOfBits ((b :: rest).take 8) :: packBitsF fuel ((b :: rest).drop 8)

/-- Modelled from the spec: pack bits into ceil(len/8) bytes, bit i of
element i at bit (i mod 8) of byte (i div 8). -/
def packBits (bs : List Bool) : List Nat := packBitsF bs.length bs

/-- Unpack bytes into their bit sequence, 8 bits per byte, low-bit-first. -/
def unpackBits : List Nat → List Bool
  | [] => []
  | b :: rest => bitsOfByte b ++ unpackBits rest

/-- Index of the last true bit (the Bitlist sentinel position when reading
an encoded Bitlist), if any. -/
def lastTrueIdx : List Bool → Option Nat
  | [] => none
  | b :: rest =>
    match lastTrueIdx rest with
    | some i => some (i + 1)
    | none => if b then some 0 else none

/-! ### The encoder (spec section 4.2) -/

/-- The slice `bytes[start : start+len]` (clamped at the end of the list). -/
def takeSlice (bytes : List Nat) (start len : Nat) : List Nat :=
  (bytes.drop start).take len

/-- Fixed-part slot taken by an encoded item: the encoding itself if the
item is fixed-size, else a 4-byte offset. -/
def slotLenB (p : Bool × List Nat) : Nat := if p.1 then p.2.length else 4

/-- Modelled from the spec: the fixed part of a container or variable-size
collection. Each item is (isFixedSize, its full encoding); `off` is the
offset of the next variable-size item's bytes, starting at the total
fixed-part length. Fixed items contribute their encoding, variable items a
4-byte little-endian offset; an offset not fitting in 4 bytes is an error. -/
def fixedPartOut : List (Bool × List Nat) → Nat → Except Err (List Nat)
  | [], _ => .ok []
  | (true, e) :: rest, off =>
    match fixedPartOut rest off with
    | .ok tail => .ok (e ++ tail)
    | .error er => .error er
  | (false, e) :: rest, off =>
    if off < 2 ^ 32 then
      match fixedPartOut rest (off + e.length) with
      | .ok tail => .ok (leBytes 4 off ++ tail)
      | .error er => .error er
    else .error .offsetOverflow

/-- The variable part: the variable-size items' encodings, in order,
back-to-back with no padding. -/
def varPart : List (Bool × List Nat) → List Nat
  | [] => []
  | (true, _) :: rest => varPart rest
  | (false, e) :: rest => e ++ varPart rest

/-- Modelled from the spec: fixed part followed by variable part
(spec section 4.2 step 3, section 6 wire format). -/
def serializeItems (items : List (Bool × List Nat)) : Except Err (List Nat) :=
  match fixedPartOut items ((items.map slotLenB).sum) with
  | .ok fp => .ok (fp ++ varPart items)
  | .error er => .error er

/-- Encode fields pointwise with the supplied encoder; a field-count
mismatch between descriptors and values is an error. -/
def encodeFieldsF (enc : Descr → Value → Except Err (List Nat)) :
    List Descr → List Value → Except Err (List (List Nat))
  | [], [] => .ok []
  | d :: ds, v :: vs =>
    match enc d v with
    | .ok e =>
      match encodeFieldsF enc ds vs with
      | .ok rest => .ok (e :: rest)
      | .error er => .error er
    | .error er => .error er
  | _, _ => .error .lengthMismatch

/-- Encode a field list and lay it out as fixed part plus variable part. -/
def encodeItems (enc : Descr → Value → Except Err (List Nat))
    (ds : List Descr) (vs : List Value) : Except Err (List Nat) :=
  match encodeFieldsF enc ds vs with
  | .ok encs => serializeItems ((ds.map isFixedSize).zip encs)
  | .error er => .error er

/-- Modelled from the spec: the encoder (spec section 4.2), fuel-indexed on
the descriptor depth so that the recursion is structural. Basic values are
little-endian; Vectors, Lists and Containers lay their elements out as
fixed part plus offset table plus variable part (for fixed-size elements
the offset table is empty and this is plain concatenation); Bitvectors pack
bits; Bitlists pack bits and append the sentinel bit; a List or Bitlist
longer than its capacity is a CapacityExceeded error. -/
def encodeF : Nat → Descr → Value → Except Err (List Nat)
  | 0, _, _ => .error .truncated
  | fuel + 1, d, v =>
    match d, v with
    | .basic w, .basic _ x => .ok (leBytes w x)
    | .vector e _, .vector vs => encodeItems (encodeF fuel) (List.replicate vs.length e) vs
    | .list e cap, .list vs =>
      if cap < vs.length then .error .capacityExceeded
      else encodeItems (encodeF fuel) (List.replicate vs.length e) vs
    | .bitvector _, .bitvector bs => .ok (packBits bs)
    | .bitlist cap, .bitlist bs =>
      if cap < bs.length then .error .capacityExceeded
      else .ok (packBits (bs ++ [true]))
    | .container ds, .container vs => encodeItems (encodeF fuel) ds vs
    | _, _ => .error .lengthMismatch

/-- Modelled from the spec: `encode(value, descriptor) -> bytes | Error`. -/
def encode (d : Descr) (v : Value) : Except Err (List Nat) := encodeF (dsize d) d v

/-! ### The decoder (spec section 4.3) -/

/-- The recovered 4-byte offsets of the variable-size fields: walk the
fixed part in field order, skipping fixed-size fields and reading a 4-byte
little-endian offset for each variable-size field. -/
def readOffsets (bytes : List Nat) : List Descr → Nat → List Nat
  | [], _ => []
  | d :: ds, p =>
    if isFixedSize d then readOffsets bytes ds (p + fixedByteLength d)
    else fromLeBytes (takeSlice bytes p 4) :: readOffsets bytes ds (p + 4)

/-- The list is non-decreasing. -/
def chainLe : List Nat → Bool
  | [] => true
  | [_] => true
  | a :: b :: rest => decide (a ≤ b) && chainLe (b :: rest)

/-- Modelled from the spec: offset-table validation (spec section 4.3
step 3). The offsets must be non-decreasing in field order, the first
offset must equal the fixed-part total length exactly, and every offset
must stay within the input, whose end is the last field's implied end. With
no variable-size fields the input must be exactly the fixed part. -/
def offsOk (offs : List Nat) (fixedLen total : Nat) : Bool :=
  match offs with
  | [] => total == fixedLen
  | o :: _ => o == fixedLen && chainLe (offs ++ [total])

/-- Decode the fields of a container or collection. `p` is the position in
the fixed part; `bounds` is the variable-size fields' offsets followed by
the total input length, so each variable-size field decodes from
`[bounds[j], bounds[j+1])` while each fixed-size field decodes from its
slot in the fixed part. -/
def decodeFieldsF (dec : List Nat → Descr → Except Err Value) (bytes : List Nat) :
    List Descr → Nat → List Nat → Except Err (List Value)
  | [], _, _ => .ok []
  | d :: ds, p, bounds =>
    if isFixedSize d then
      match dec (takeSlice bytes p (fixedByteLength d)) d with
      | .ok v =>
        match decodeFieldsF dec bytes ds (p + fixedByteLength d) bounds with
        | .ok rest => .ok (v :: rest)
        | .error er => .error er
      | .error er => .error er
    else
      match bounds with
      | b1 :: b2 :: brest =>
        match dec (takeSlice bytes b1 (b2 - b1)) d with
        | .ok v =>
          match decodeFieldsF dec bytes ds (p + 4) (b2 :: brest) with
          | .ok rest => .ok (v :: rest)
          | .error er => .error er
        | .error er => .error er
      | _ => .error .malformedOffsets

/-- Modelled from the spec: the decoder (spec section 4.3), fuel-indexed on
the descriptor depth. It mirrors the encoder in reverse and is strict:
exact length checks for fixed-size shapes, offset-table validation for
variable-size shapes, sentinel recovery for Bitlists, capacity checks for
Lists and Bitlists; any irregularity is an error for the whole decode. -/
def decodeF : Nat → List Nat → Descr → Except Err Value
  | 0, _, _ => .error .truncated
  | fuel + 1, bytes, d =>
    match d with
    | .basic w =>
      if bytes.length == w then .ok (.basic w (fromLeBytes bytes))
      else .error .lengthMismatch
    | .vector e n =>
      if isFixedSize e then
        if bytes.length == n * fixedByteLength e then
          match decodeFieldsF (decodeF fuel) bytes (List.replicate n e) 0 [bytes.length] with
          | .ok vs => .ok (.vector vs)
          | .error er => .error er
        else .error .lengthMismatch
      else
        if bytes.length < 4 * n then .error .truncated
        else
          let offs := readOffsets bytes (List.replicate n e) 0
          if offsOk offs (4 * n) bytes.length then
            match decodeFieldsF (decodeF fuel) bytes (List.replicate n e) 0 (offs ++ [bytes.length]) with
            | .ok vs => .ok (.vector vs)
            | .error er => .error er
          else .error .malformedOffsets
    | .list e cap =>
      if isFixedSize e then
        if bytes.length % fixedByteLength e == 0 then
          if bytes.length / fixedByteLength e ≤ cap then
            match decodeFieldsF (decodeF fuel) bytes
              (List.replicate (bytes.length / fixedByteLength e) e) 0 [bytes.length] with
            | .ok vs => .ok (.list vs)
            | .error er => .error er
          else .error .capacityExceeded
        else .error .lengthMismatch
      else
        if bytes.length == 0 then .ok (.list [])
        else if bytes.length < 4 then .error .truncated
        else
          let off0 := fromLeBytes (takeSlice bytes 0 4)
          if off0 % 4 == 0 then
            if off0 / 4 ≤ cap then
              if bytes.length < off0 then .error .truncated
              else
                let offs := readOffsets bytes (List.replicate (off0 / 4) e) 0
                if offsOk offs off0 bytes.length then
                  match decodeFieldsF (decodeF fuel) bytes
                    (List.replicate (off0 / 4) e) 0 (offs ++ [bytes.length]) with
                  | .ok vs => .ok (.list vs)
                  | .error er => .error er
                else .error .malformedOffsets
            else .error .capacityExceeded
          else .error .malformedOffsets
    | .bitvector n =>
      if bytes.length == (n + 7) / 8 then .ok (.bitvector ((unpackBits bytes).take n))
      else .error .lengthMismatch
    | .bitlist cap =>
      match lastTrueIdx (unpackBits bytes) with
      | none => .error .invalidSentinel
      | some n =>
        if n ≤ cap then .ok (.bitlist ((unpackBits bytes).take n))
        else .error .capacityExceeded
    | .container ds =>
      if allFixed ds then
        if bytes.length == sumSlotLens ds then
          match decodeFieldsF (decodeF fuel) bytes ds 0 [bytes.length] with
          | .ok vs => .ok (.container vs)
          | .error er => .error er
        else .error .lengthMismatch
      else
        if bytes.length < sumSlotLens ds then .error .truncated
        else
          let offs := readOffsets bytes ds 0
          if offsOk offs (sumSlotLens ds) bytes.length then
            match decodeFieldsF (decodeF fuel) bytes ds 0 (offs ++ [bytes.length]) with
            | .ok vs => .ok (.container vs)
            | .error er => .error er
          else .error .malformedOffsets

/-- Modelled from the spec: `decode(bytes, descriptor) -> value | Error`. -/
def decode (bytes : List Nat) (d : Descr) : Except Err Value := decodeF (dsize d) bytes d

/-! ### Chunk packer and Merkleizer (spec section 4.4)

The cryptographic hash is modelled as a free binary constructor over 32-byte
chunks, so two digests are equal exactly when they were built from the same
hash inputs. -/

/-- A hash-tree digest: either a 32-byte chunk used directly, or the hash of
the concatenation of two child digests. -/
inductive HNode where
  | chunk (c : List Nat)
  | hash2 (a b : HNode)
  deriving DecidableEq, Repr

/-- The all-zero 32-byte chunk used to pad absent leaves. -/
def zeroChunk : List Nat := List.replicate 32 0

/-- Zero-pad a partial chunk to 32 bytes. -/
def padTo32 (l : List Nat) : List Nat := l ++ List.replicate (32 - l.length) 0

/-- Cut a byte string into 32-byte chunks, zero-padding the final partial
chunk; fuel-indexed (fuel is the byte count) so it is structural. -/
def chunkifyF : Nat → List Nat → List (List Nat)
  | 0, _ => []
  | _ + 1, [] => []
  | fuel + 1, b :: rest =>
    padTo32 ((b :: rest).take 32) :: chunkifyF fuel ((b :: rest).drop 32)

/-- Modelled from the spec: packing serialized leaves into 32-byte chunks
(spec section 4.4 step 1). -/
def chunkify (bytes : List Nat) : List (List Nat) := chunkifyF bytes.length bytes

/-- The packed chunks of a byte string, as Merkle tree leaves. -/
def chunkLeaves (bytes : List Nat) : List HNode := (chunkify bytes).map .chunk

/-- Binary Merkle tree of the given depth over the leaves, zero-padded on
the right: at depth 0 the single leaf (or the zero chunk if absent), else
the hash of the two half-trees. -/
def merkAtDepth : Nat → List HNode → HNode
  | 0, [] => .chunk zeroChunk
  | 0, c :: _ => c
  | dep + 1, leaves =>
    .hash2 (merkAtDepth dep (leaves.take (2 ^ dep))) (merkAtDepth dep (leaves.drop (2 ^ dep)))

/-- Ceiling base-2 logarithm by repeated halving, fuel-indexed so it is
structural (the fuel is the argument itself, which bounds the halvings). -/
def clog2F : Nat → Nat → Nat
  | 0, _ => 0
  | fuel + 1, m => if m ≤ 1 then 0 else clog2F fuel ((m + 1) / 2) + 1

/-- The depth of the capacity-shaped tree: the smallest d with 2 ^ d at or
above the capacity-implied maximum leaf count. -/
def clog2 (m : Nat) : Nat := clog2F m m

/-- Modelled from the spec: Merkleize the leaf chunks at the capacity shape,
padding with zero chunks up to the next power of two at or above the
capacity-implied maximum leaf count (spec section 4.4 step 2). -/
def merkleize (leaves : List HNode) (limit : Nat) : HNode :=
  merkAtDepth (clog2 limit) leaves

/-- Modelled from the spec: length mix-in for Lists and Bitlists — the hash
of the capacity-shaped root together with the current length as a 32-byte
little-endian integer (spec section 4.4 step 3). -/
def mixInLength (root : HNode) (n : Nat) : HNode :=
  .hash2 root (.chunk (leBytes 32 n))

/-- Whether a descriptor is a basic scalar. -/
def isBasic : Descr → Bool
  | .basic _ => true
  | _ => false

/-- The width of a basic descriptor (0 otherwise). -/
def basicWidth : Descr → Nat
  | .basic w => w
  | _ => 0

/-- Serialized bytes of one basic leaf value. -/
def basicBytes (w : Nat) : Value → List Nat
  | .basic _ x => leBytes w x
  | _ => []

/-- Serialized bytes of a sequence of basic leaf values, concatenated. -/
def seqBytes (w : Nat) : List Value → List Nat
  | [] => []
  | v :: vs => basicBytes w v ++ seqBytes w vs

/-- Capacity-shaped root of a homogeneous sequence: basic elements pack
into a contiguous chunk stream limited by ceil(limit*width/32) chunks;
composite elements each reduce to their own root, one chunk per element,
limited by the capacity itself. -/
def seqRoot (h : Value → HNode) (e : Descr) (vs : List Value) (limit : Nat) : HNode :=
  if isBasic e then
    merkleize (chunkLeaves (seqBytes (basicWidth e) vs)) ((limit * basicWidth e + 31) / 32)
  else merkleize (vs.map h) limit

/-- Roots of a container's fields, one leaf chunk per field. -/
def htrFields (h : Descr → Value → HNode) : List Descr → List Value → List HNode
  | d :: ds, v :: vs => h d v :: htrFields h ds vs
  | _, _ => []

/-- Modelled from the spec: the hash-tree-root algorithm (spec section 4.4),
fuel-indexed on the descriptor depth. Lists and Bitlists mix in their
current length over the capacity-shaped tree root; Vectors, Bitvectors and
Containers do not. -/
def htrF : Nat → Descr → Value → HNode
  | 0, _, _ => .chunk zeroChunk
  | fuel + 1, d, v =>
    match d, v with
    | .basic w, .basic _ x => .chunk (padTo32 (leBytes w x))
    | .vector e n, .vector vs => seqRoot (htrF fuel e) e vs n
    | .list e cap, .list vs => mixInLength (seqRoot (htrF fuel e) e vs cap) vs.length
    | .bitvector n, .bitvector bs => merkleize (chunkLeaves (packBits bs)) ((n + 255) / 256)
    | .bitlist cap, .bitlist bs =>
      mixInLength (merkleize (chunkLeaves (packBits bs)) ((cap + 255) / 256)) bs.length
    | .container ds, .container vs => merkleize (htrFields (htrF fuel) ds vs) ds.length
    | _, _ => .chunk zeroChunk

/-- Modelled from the spec: `hashTreeRoot(value, descriptor) -> digest`. -/
def hashTreeRoot (d : Descr) (v : Value) : HNode := htrF (dsize d) d v

/-! ### Auxiliary notions for the correctness proofs -/

/-- The offsets the encoder assigns to the variable-size items, starting at
`off` (the total fixed-part length on the first call): each variable-size
item gets the current offset, which then advances by that item's encoded
length; fixed-size items get no offset. -/
def varOffsets (off : Nat) : List (Bool × List Nat) → List Nat
  | [] => []
  | (true, _) :: rest => varOffsets off rest
  | (false, e) :: rest => off :: varOffsets (off + e.length) rest

/-- Pointwise relation between field descriptors, field values and their
encodings under a given decoder: each encoding decodes back to its value,
and fixed-size fields encode to exactly their fixed byte length. -/
inductive FieldRel (dec : List Nat → Descr → Except Err Value) :
    List Descr → List Value → List (List Nat) → Prop where
  | nil : FieldRel dec [] [] []
  | cons {d : Descr} {v : Value} {e : List Nat} {ds : List Descr}
      {vs : List Value} {es : List (List Nat)} :
      dec e d = .ok v →
      (isFixedSize d = true → e.length = fixedByteLength d) →
      FieldRel dec ds vs es →
      FieldRel dec (d :: ds) (v :: vs) (e :: es)

/-- The items (fixedness flag and encoding) of a field list. -/
def fieldItems (ds : List Descr) (es : List (List Nat)) : List (Bool × List Nat) :=
  (ds.map isFixedSize).zip es

/-! ### Concrete shapes used by the spec's scenarios -/

/-- The spec's two-field scenario container: a fixed 8-byte integer and a
List of bytes with capacity 4. -/
def scenarioD : Descr := .container [.basic 8, .list (.basic 1) 4]

/-- The scenario value: the integer 5 and the list [1, 2, 3]. -/
def scenarioV : Value := .container [.basic 8 5, .list [.basic 1 1, .basic 1 2, .basic 1 3]]

/-- The scenario's expected 15-byte encoding. -/
def scenarioBytes : List Nat := [5, 0, 0, 0, 0, 0, 0, 0, 12, 0, 0, 0, 1, 2, 3]

/-- The List of 4-byte integers with capacity 10 from the spec's
hash-tree-root scenario. -/
def u32list10 : Descr := .list (.basic 4) 10

end SSZ

/-! ### Go helpers present in the source tree -/

/-- `PreAllocatedWriter` from the benchmark harness: a caller-provided
output buffer `Out` and a fixed offset `N`. -/
structure PreAllocatedWriter where
  Out : List Nat
  N : Nat
  deriving DecidableEq, Repr

/-- `PreAllocatedWriter.Write`: Go's `copy(p.Out[p.N:], data)` copies
min(len(data), len(Out)-N) bytes of `data` into `Out` starting at index
`N`, and the method returns the copied count with a nil error (modelled as
`none`), leaving `N` unchanged. Go panics on the slice expression
`p.Out[p.N:]` when `N` exceeds `len(Out)`; the panic is modelled as the
outer `Option` being `none`. -/
def PreAllocatedWriter.Write (p : PreAllocatedWriter) (data : List Nat) :
    Option (PreAllocatedWriter × Nat × Option Unit) :=
  if p.N ≤ p.Out.length then
    let n := min data.length (p.Out.length - p.N)
    some (⟨p.Out.take p.N ++ data.take n ++ p.Out.drop (p.N + n), p.N⟩, n, none)
  else none

namespace P2P

/-- The p2p `Server`'s state visible to `Feed`: the `feeds` map from a
message's dynamic type (`reflect.Type`, modelled as a Nat key) to an
`*event.Feed` pointer (modelled as a Nat identifier; a missing entry is the
nil pointer), plus a fresh-pointer source modelling `new(event.Feed)`. -/
structure Server where
  feeds : List (Nat × Nat)
  nextPtr : Nat
  deriving DecidableEq, Repr

/-- `Server.Feed` from feed.go: look up the feed for the message's dynamic
type; if the map holds nil, allocate a fresh feed and store it; return the
feed pointer (as `some id`, never `none` = nil) and a nil error. -/
def Server.Feed (s : Server) (t : Nat) : Server × Option Nat × Option Unit :=
  match s.feeds.lookup t with
  | some f => (s, some f, none)
  | none => (⟨(t, s.nextPtr) :: s.feeds, s.nextPtr + 1⟩, some s.nextPtr, none)

end P2P

/-- `beacon.VALIDATOR_REGISTRY_LIMIT`, the eth2 validator registry limit
constant (an external library constant; its value does not matter for the
claims about it). -/
def VALIDATOR_REGISTRY_LIMIT : Nat := 2 ^ 40

/-- `MockValidatorRegistry` from the benchmark harness: a slice of 121-byte
validator records. -/
structure MockValidatorRegistry where
  validators : List (List Nat)
  deriving DecidableEq, Repr

/-- `MockValidatorRegistry.Limit`: the receiver (a possibly-nil pointer,
modelled as an `Option`) is ignored and the registry limit constant is
returned. -/
def MockValidatorRegistry.Limit (_ : Option MockValidatorRegistry) : Nat :=
  VALIDATOR_REGISTRY_LIMIT



/-! ## Lemmas: little-endian bytes -/

namespace SSZ

theorem leBytes_length (w : Nat) : ∀ x, (leBytes w x).length = w := by
  induction w with
  | zero => intro x; rfl
  | succ w ih => intro x; simp [leBytes, ih]

theorem fromLeBytes_leBytes (w : Nat) : ∀ x, x < 256 ^ w → fromLeBytes (leBytes w x) = x := by
  induction w with
  | zero =>
    intro x h
    simp only [pow_zero, Nat.lt_one_iff] at h
    simp [h, leBytes, fromLeBytes]
  | succ w ih =>
    intro x h
    have hdiv : x / 256 < 256 ^ w := by
      rw [Nat.div_lt_iff_lt_mul (by norm_num)]
      calc x < 256 ^ (w + 1) := h
        _ = 256 ^ w * 256 := by ring
    simp only [leBytes, fromLeBytes, ih (x / 256) hdiv]
    omega

/-! ## Lemmas: bit packing -/

theorem bitsOfNat_zero : ∀ k, bitsOfNat k 0 = List.replicate k false := by
  intro k
  induction k with
  | zero => rfl
  | succ k ih => simp [bitsOfNat, ih, List.replicate]

theorem bitsOfNat_byteOfBits : ∀ (bs : List Bool) (k : Nat), bs.length ≤ k →
    bitsOfNat k (byteOfBits bs) = bs ++ List.replicate (k - bs.length) false := by
  intro bs
  induction bs with
  | nil => intro k _; simp [byteOfBits, bitsOfNat_zero]
  | cons b rest ih =>
    intro k hk
    match k with
    | kk + 1 =>
      have hmod : byteOfBits (b :: rest) % 2 = if b then 1 else 0 := by
        simp only [byteOfBits]
        cases b <;> simp
      have hdiv : byteOfBits (b :: rest) / 2 = byteOfBits rest := by
        simp only [byteOfBits]
        cases b
        · show (0 + 2 * byteOfBits rest) / 2 = byteOfBits rest
          omega
        · show (1 + 2 * byteOfBits rest) / 2 = byteOfBits rest
          omega
      simp only [bitsOfNat, hmod, hdiv]
      rw [ih kk (by simpa using hk)]
      cases b <;> simp

theorem packBitsF_fuel : ∀ (fuel fuel' : Nat) (bs : List Bool),
    bs.length ≤ fuel → bs.length ≤ fuel' → packBitsF fuel bs = packBitsF fuel' bs := by
  intro fuel
  induction fuel with
  | zero =>
    intro fuel' bs h _
    have : bs = [] := List.eq_nil_of_length_eq_zero (by omega)
    subst this
    cases fuel' <;> rfl
  | succ fuel ih =>
    intro fuel' bs h h'
    match bs, fuel' with
    | [], 0 => rfl
    | [], ff + 1 => rfl
    | b :: rest, ff + 1 =>
      simp only [List.length_cons] at h h'
      simp only [packBitsF]
      congr 1
      have hd : ((b :: rest).drop 8).length = rest.length + 1 - 8 := by simp
      exact ih ff ((b :: rest).drop 8) (by omega) (by omega)

theorem packBits_cons (b : Bool) (rest : List Bool) :
    packBits (b :: rest) = byteOfBits ((b :: rest).take 8) :: packBits ((b :: rest).drop 8) := by
  simp only [packBits, List.length_cons, packBitsF]
  congr 1
  have hd : ((b :: rest).drop 8).length = rest.length + 1 - 8 := by simp
  exact packBitsF_fuel rest.length ((b :: rest).drop 8).length ((b :: rest).drop 8)
    (by omega) le_rfl

theorem unpack_pack_aux : ∀ (n : Nat) (l : List Bool), l.length ≤ 8 * n →
    unpackBits (packBits l) = l ++ List.replicate ((8 - l.length % 8) % 8) false := by
  intro n
  induction n with
  | zero =>
    intro l h
    have : l = [] := List.eq_nil_of_length_eq_zero (by omega)
    subst this
    simp [packBits, packBitsF, unpackBits]
  | succ n ih =>
    intro l h
    match l with
    | [] => simp [packBits, packBitsF, unpackBits]
    | b :: rest =>
      rw [packBits_cons]
      simp only [unpackBits, bitsOfByte]
      rw [bitsOfNat_byteOfBits ((b :: rest).take 8) 8 (by simp)]
      rw [ih ((b :: rest).drop 8) (by simp at h ⊢; omega)]
      rcases le_or_lt (b :: rest).length 8 with hle | hgt
      · have htake : (b :: rest).take 8 = b :: rest := List.take_of_length_le hle
        have hdrop : (b :: rest).drop 8 = [] := List.drop_eq_nil_of_le hle
        rw [htake, hdrop]
        simp only [List.length_nil, List.length_cons, Nat.zero_mod, Nat.sub_zero,
          Nat.mod_self, List.replicate_zero, List.append_nil]
        simp only [List.length_cons] at hle
        have hcount : 8 - (rest.length + 1) = (8 - (rest.length + 1) % 8) % 8 := by omega
        rw [hcount]
      · have hlen8 : ((b :: rest).take 8).length = 8 :=
          List.length_take_of_le (by omega)
        have hlendrop : ((b :: rest).drop 8).length = (b :: rest).length - 8 := by
          simp
        rw [hlen8, hlendrop]
        have h2 : ((b :: rest).length - 8) % 8 = (b :: rest).length % 8 := by omega
        rw [h2]
        simp only [Nat.sub_self, List.replicate_zero, List.append_nil]
        rw [← List.append_assoc, List.take_append_drop]

theorem unpack_pack (l : List Bool) :
    unpackBits (packBits l) = l ++ List.replicate ((8 - l.length % 8) % 8) false :=
  unpack_pack_aux l.length l (by omega)

theorem packBits_length_aux : ∀ (n : Nat) (l : List Bool), l.length ≤ 8 * n →
    (packBits l).length = (l.length + 7) / 8 := by
  intro n
  induction n with
  | zero =>
    intro l h
    have : l = [] := List.eq_nil_of_length_eq_zero (by omega)
    subst this
    rfl
  | succ n ih =>
    intro l h
    match l with
    | [] => rfl
    | b :: rest =>
      rw [packBits_cons]
      simp only [List.length_cons]
      rw [ih ((b :: rest).drop 8) (by simp at h ⊢; omega)]
      simp only [List.length_drop, List.length_cons]
      omega

theorem packBits_length (l : List Bool) : (packBits l).length = (l.length + 7) / 8 :=
  packBits_length_aux l.length l (by omega)

theorem lastTrueIdx_replicate_false : ∀ k, lastTrueIdx (List.replicate k false) = none := by
  intro k
  induction k with
  | zero => rfl
  | succ k ih => simp [List.replicate, lastTrueIdx, ih]

theorem lastTrueIdx_append_falses : ∀ (l : List Bool) (k : Nat),
    lastTrueIdx (l ++ List.replicate k false) = lastTrueIdx l := by
  intro l
  induction l with
  | nil => intro k; simp [lastTrueIdx_replicate_false, lastTrueIdx]
  | cons b rest ih => intro k; simp [lastTrueIdx, ih]

theorem lastTrueIdx_snoc_true : ∀ l : List Bool, lastTrueIdx (l ++ [true]) = some l.length := by
  intro l
  induction l with
  | nil => rfl
  | cons b rest ih => simp [lastTrueIdx, ih]

theorem unpackBits_replicate_zero : ∀ k, unpackBits (List.replicate k 0) = List.replicate (8 * k) false := by
  intro k
  induction k with
  | zero => rfl
  | succ k ih =>
    have hb : bitsOfByte 0 = List.replicate 8 false := by decide
    rw [List.replicate_succ]
    simp only [unpackBits, ih, hb]
    rw [← List.replicate_add]
    have h8 : 8 + 8 * k = 8 * (k + 1) := by ring
    rw [h8]

end SSZ

/-! ## Lemmas: fixed part, variable part and offsets -/

namespace SSZ

theorem fieldItems_nil_left (es : List (List Nat)) : fieldItems [] es = [] := rfl

theorem fieldItems_cons (d : Descr) (ds : List Descr) (e : List Nat) (es : List (List Nat)) :
    fieldItems (d :: ds) (e :: es) = (isFixedSize d, e) :: fieldItems ds es := rfl

theorem fixedPartOut_length : ∀ (items : List (Bool × List Nat)) (off : Nat) (fp : List Nat),
    fixedPartOut items off = .ok fp → fp.length = (items.map slotLenB).sum := by
  intro items
  induction items with
  | nil =>
    intro off fp h
    simp only [fixedPartOut, Except.ok.injEq] at h
    simp [← h]
  | cons it rest ih =>
    intro off fp h
    obtain ⟨fx, e⟩ := it
    cases fx
    · simp only [fixedPartOut] at h
      split at h
      · split at h
        · simp only [Except.ok.injEq] at h
          rename_i tail hr
          have := ih (off + e.length) tail hr
          simp [← h, slotLenB, this, leBytes_length]
        · exact absurd h (by simp)
      · exact absurd h (by simp)
    · simp only [fixedPartOut] at h
      split at h
      · simp only [Except.ok.injEq] at h
        rename_i tail hr
        have := ih off tail hr
        simp [← h, slotLenB, this]
      · exact absurd h (by simp)

theorem varOffsets_head : ∀ (items : List (Bool × List Nat)) (off h : Nat) (t : List Nat),
    varOffsets off items = h :: t → h = off := by
  intro items
  induction items with
  | nil => intro off h t hh; simp [varOffsets] at hh
  | cons it rest ih =>
    intro off h t hh
    obtain ⟨fx, e⟩ := it
    cases fx
    · simp only [varOffsets, List.cons.injEq] at hh
      exact hh.1.symm
    · simp only [varOffsets] at hh
      exact ih off h t hh

theorem varOffsets_nil_varPart : ∀ (items : List (Bool × List Nat)) (off : Nat),
    varOffsets off items = [] → varPart items = [] := by
  intro items
  induction items with
  | nil => intro off _; rfl
  | cons it rest ih =>
    intro off hh
    obtain ⟨fx, e⟩ := it
    cases fx
    · simp [varOffsets] at hh
    · simp only [varOffsets] at hh
      simp only [varPart]
      exact ih off hh

theorem drop_shift {α : Type} (bytes x y : List α) (p : Nat) (h : bytes.drop p = x ++ y) :
    bytes.drop (p + x.length) = y := by
  rw [← List.drop_drop x.length p bytes, h, List.drop_left]

theorem takeSlice_exact (bytes x y : List Nat) (p : Nat) (h : bytes.drop p = x ++ y) :
    takeSlice bytes p x.length = x := by
  simp only [takeSlice, h, List.take_left]

end SSZ

namespace SSZ

/-- The length-condition relation between field descriptors and their
encodings: fixed-size fields encode to exactly their fixed byte length. -/
def LenRel (ds : List Descr) (es : List (List Nat)) : Prop :=
  List.Forall₂ (fun d e => isFixedSize d = true → (e : List Nat).length = fixedByteLength d) ds es

theorem FieldRel_lenRel {dec : List Nat → Descr → Except Err Value}
    {ds : List Descr} {vs : List Value} {es : List (List Nat)}
    (h : FieldRel dec ds vs es) : LenRel ds es := by
  induction h with
  | nil => exact List.Forall₂.nil
  | cons hdec hlen hrest ih => exact List.Forall₂.cons hlen ih

theorem chainLe_cons (a b : Nat) (t : List Nat) :
    chainLe (a :: b :: t) = (decide (a ≤ b) && chainLe (b :: t)) := rfl

theorem varOffsets_bounds_ge (items : List (Bool × List Nat)) (o L : Nat) (hL : o ≤ L) :
    ∃ h t, varOffsets o items ++ [L] = h :: t ∧ o ≤ h := by
  cases hvo : varOffsets o items with
  | nil => exact ⟨L, [], by simp, hL⟩
  | cons h t =>
    have := varOffsets_head items o h t hvo
    exact ⟨h, t ++ [L], by simp, le_of_eq this.symm⟩

theorem chainLe_varOffsets : ∀ (items : List (Bool × List Nat)) (off : Nat),
    chainLe (varOffsets off items ++ [off + (varPart items).length]) = true := by
  intro items
  induction items with
  | nil => intro off; rfl
  | cons it rest ih =>
    intro off
    obtain ⟨fx, e⟩ := it
    cases fx
    · simp only [varOffsets, varPart, List.length_append]
      have hre : off + (e.length + (varPart rest).length)
          = (off + e.length) + (varPart rest).length := by omega
      rw [hre]
      obtain ⟨h, t, hht, hle⟩ := varOffsets_bounds_ge rest (off + e.length)
        ((off + e.length) + (varPart rest).length) (by omega)
      rw [List.cons_append, hht, chainLe_cons]
      have hch := ih (off + e.length)
      rw [hht] at hch
      simp [hch, Nat.le_trans (Nat.le_add_right off e.length) hle]
    · simp only [varOffsets, varPart]
      exact ih off

theorem offsOk_varOffsets (items : List (Bool × List Nat)) (fl total : Nat)
    (htot : total = fl + (varPart items).length) :
    offsOk (varOffsets fl items) fl total = true := by
  cases hvo : varOffsets fl items with
  | nil =>
    have := varOffsets_nil_varPart items fl hvo
    simp only [offsOk]
    simp [htot, this]
  | cons o t =>
    have ho := varOffsets_head items fl o t hvo
    subst ho
    simp only [offsOk]
    have hch := chainLe_varOffsets items o
    rw [hvo] at hch
    rw [htot, ← hvo]
    rw [List.cons_append] at hch
    simp [hch, hvo]

theorem readOffsets_eq : ∀ {ds : List Descr} {es : List (List Nat)}, LenRel ds es →
    ∀ (bytes fp tail : List Nat) (p off : Nat),
    fixedPartOut (fieldItems ds es) off = .ok fp →
    bytes.drop p = fp ++ tail →
    readOffsets bytes ds p = varOffsets off (fieldItems ds es) := by
  intro ds es hrel
  induction hrel with
  | nil => intro bytes fp tail p off hfp hdp; rfl
  | @cons d e ds es hde hrest ih =>
    intro bytes fp tail p off hfp hdp
    rw [fieldItems_cons] at hfp ⊢
    cases hfx : isFixedSize d with
    | true =>
      rw [hfx] at hfp
      simp only [fixedPartOut] at hfp
      split at hfp
      · simp only [Except.ok.injEq] at hfp
        rename_i fp' hfp'
        subst hfp
        simp only [readOffsets, hfx, if_pos rfl, varOffsets]
        have hdp' : bytes.drop (p + fixedByteLength d) = fp' ++ tail := by
          rw [← hde hfx]
          exact drop_shift bytes e (fp' ++ tail) p (by simpa using hdp)
        exact ih bytes fp' tail (p + fixedByteLength d) off hfp' hdp'
      · exact absurd hfp (by simp)
    | false =>
      rw [hfx] at hfp
      simp only [fixedPartOut] at hfp
      split at hfp
      · split at hfp
        · simp only [Except.ok.injEq] at hfp
          rename_i hlt fp' hfp'
          subst hfp
          simp only [readOffsets, hfx, Bool.false_eq_true, if_neg, varOffsets]
          rw [if_neg (by simp)]
          have hslice : takeSlice bytes p 4 = leBytes 4 off := by
            have h4 : (leBytes 4 off).length = 4 := leBytes_length 4 off
            rw [← h4]
            exact takeSlice_exact bytes (leBytes 4 off) (fp' ++ tail) p (by simpa using hdp)
          have hoff : fromLeBytes (leBytes 4 off) = off := by
            apply fromLeBytes_leBytes
            have : (256 : Nat) ^ 4 = 2 ^ 32 := by norm_num
            omega
          rw [hslice, hoff]
          congr 1
          have hdp' : bytes.drop (p + 4) = fp' ++ tail := by
            have h4 : (leBytes 4 off).length = 4 := leBytes_length 4 off
            rw [← h4]
            exact drop_shift bytes (leBytes 4 off) (fp' ++ tail) p (by simpa using hdp)
          exact ih bytes fp' tail (p + 4) (off + e.length) hfp' hdp'
        · exact absurd hfp (by simp)
      · exact absurd hfp (by simp)

end SSZ

namespace SSZ

theorem decodeFieldsF_correct {dec : List Nat → Descr → Except Err Value} :
    ∀ {ds : List Descr} {vs : List Value} {es : List (List Nat)}, FieldRel dec ds vs es →
    ∀ (bytes fp tail : List Nat) (p off : Nat),
    fixedPartOut (fieldItems ds es) off = .ok fp →
    bytes.drop p = fp ++ tail →
    bytes.drop off = varPart (fieldItems ds es) →
    off ≤ bytes.length →
    decodeFieldsF dec bytes ds p (varOffsets off (fieldItems ds es) ++ [bytes.length]) = .ok vs := by
  intro ds vs es hrel
  induction hrel with
  | nil => intro bytes fp tail p off _ _ _ _; rfl
  | @cons d v e ds vs es hdec hlen hrest ih =>
    intro bytes fp tail p off hfp hdp hvp hoff
    rw [fieldItems_cons] at hfp hvp ⊢
    cases hfx : isFixedSize d with
    | true =>
      rw [hfx] at hfp hvp
      simp only [fixedPartOut] at hfp
      split at hfp
      · simp only [Except.ok.injEq] at hfp
        rename_i fp' hfp'
        subst hfp
        simp only [varPart] at hvp
        have hslice : takeSlice bytes p (fixedByteLength d) = e := by
          rw [← hlen hfx]
          exact takeSlice_exact bytes e (fp' ++ tail) p (by simpa using hdp)
        have hdp' : bytes.drop (p + fixedByteLength d) = fp' ++ tail := by
          rw [← hlen hfx]
          exact drop_shift bytes e (fp' ++ tail) p (by simpa using hdp)
        have hrec := ih bytes fp' tail (p + fixedByteLength d) off hfp' hdp' hvp hoff
        simp only [varOffsets]
        simp only [decodeFieldsF, hfx, if_true, hslice, hdec, hrec]
      · exact absurd hfp (by simp)
    | false =>
      rw [hfx] at hfp hvp
      simp only [fixedPartOut] at hfp
      split at hfp
      · split at hfp
        · simp only [Except.ok.injEq] at hfp
          rename_i hlt fp' hfp'
          subst hfp
          simp only [varPart] at hvp
          have hdroplen : (bytes.drop off).length = bytes.length - off :=
            List.length_drop off bytes
          rw [hvp] at hdroplen
          simp only [List.length_append] at hdroplen
          have hvplen : bytes.length = off + e.length + (varPart (fieldItems ds es)).length := by
            omega
          have hvp' : bytes.drop (off + e.length) = varPart (fieldItems ds es) :=
            drop_shift bytes e _ off hvp
          have hb : ∃ t2, varOffsets (off + e.length) (fieldItems ds es) ++ [bytes.length]
              = (off + e.length) :: t2 := by
            cases hvo : varOffsets (off + e.length) (fieldItems ds es) with
            | nil =>
              have hnil := varOffsets_nil_varPart _ _ hvo
              rw [hnil] at hvplen
              simp only [List.length_nil] at hvplen
              refine ⟨[], ?_⟩
              simp only [hvo, List.nil_append, List.cons.injEq, and_true]
              omega
            | cons h2 t2 =>
              have hh2 := varOffsets_head _ _ _ _ hvo
              subst hh2
              exact ⟨t2 ++ [bytes.length], by simp [hvo]⟩
          obtain ⟨t2, ht2⟩ := hb
          have hslice : takeSlice bytes off ((off + e.length) - off) = e := by
            have hminus : (off + e.length) - off = e.length := by omega
            rw [hminus]
            exact takeSlice_exact bytes e _ off hvp
          have hdp' : bytes.drop (p + 4) = fp' ++ tail := by
            have h4 : (leBytes 4 off).length = 4 := leBytes_length 4 off
            rw [← h4]
            exact drop_shift bytes (leBytes 4 off) (fp' ++ tail) p (by simpa using hdp)
          have hoff' : off + e.length ≤ bytes.length := by omega
          have hrec := ih bytes fp' tail (p + 4) (off + e.length) hfp' hdp' hvp' hoff'
          rw [ht2] at hrec
          simp only [varOffsets, List.cons_append, ht2]
          simp only [decodeFieldsF, hfx, Bool.false_eq_true, if_false, hslice, hdec, hrec]
        · exact absurd hfp (by simp)
      · exact absurd hfp (by simp)

end SSZ

namespace SSZ

theorem encodeItems_ok {enc : Descr → Value → Except Err (List Nat)}
    {ds : List Descr} {vs : List Value} {bytes : List Nat}
    (h : encodeItems enc ds vs = .ok bytes) :
    ∃ encs fp, encodeFieldsF enc ds vs = .ok encs ∧
      fixedPartOut (fieldItems ds encs) (((fieldItems ds encs).map slotLenB).sum) = .ok fp ∧
      bytes = fp ++ varPart (fieldItems ds encs) := by
  simp only [encodeItems] at h
  split at h
  · rename_i encs hencs
    simp only [serializeItems] at h
    split at h
    · rename_i fp hfp
      simp only [Except.ok.injEq] at h
      exact ⟨encs, fp, hencs, hfp, h.symm⟩
    · exact absurd h (by simp)
  · exact absurd h (by simp)

theorem items_sum_eq_sumSlotLens : ∀ {ds : List Descr} {es : List (List Nat)}, LenRel ds es →
    ((fieldItems ds es).map slotLenB).sum = sumSlotLens ds := by
  intro ds es h
  induction h with
  | nil => rfl
  | @cons d e ds es hde hrest ih =>
    rw [fieldItems_cons]
    simp only [List.map_cons, List.sum_cons, ih]
    simp only [sumSlotLens, List.map_cons, List.sum_cons]
    congr 1
    simp only [slotLenB, slotLen]
    cases hfx : isFixedSize d
    · simp
    · simp [hde hfx]

theorem sumSlotLens_replicate (n : Nat) (e : Descr) :
    sumSlotLens (List.replicate n e) = n * slotLen e := by
  induction n with
  | zero => simp [sumSlotLens]
  | succ n ih =>
    rw [List.replicate_succ]
    simp only [sumSlotLens, List.map_cons, List.sum_cons] at ih ⊢
    rw [ih]
    ring

theorem sumSlotLens_allFixed : ∀ (ds : List Descr), allFixed ds = true →
    sumSlotLens ds = sumFixedLen ds := by
  intro ds
  induction ds with
  | nil => intro _; rfl
  | cons d ds ih =>
    intro hall
    simp only [allFixed, Bool.and_eq_true] at hall
    simp only [sumSlotLens, List.map_cons, List.sum_cons, sumFixedLen] at ih ⊢
    rw [ih hall.2]
    simp [slotLen, hall.1]

theorem varOffsets_allFixed : ∀ (ds : List Descr) (es : List (List Nat)) (off : Nat),
    allFixed ds = true → varOffsets off (fieldItems ds es) = [] := by
  intro ds
  induction ds with
  | nil => intro es off _; rfl
  | cons d ds ih =>
    intro es off hall
    cases es with
    | nil => rfl
    | cons e es =>
      rw [fieldItems_cons]
      simp only [allFixed, Bool.and_eq_true] at hall
      rw [hall.1]
      simp only [varOffsets]
      exact ih es off hall.2

theorem conformsFields_replicate : ∀ (e : Descr) (vs : List Value),
    conformsFields (List.replicate vs.length e) vs = conformsSeq e vs := by
  intro e vs
  induction vs with
  | nil => rfl
  | cons v vs ih =>
    simp only [List.length_cons, List.replicate_succ, conformsFields, conformsSeq, ih]

theorem allFixed_replicate (n : Nat) (e : Descr) (h : isFixedSize e = true) :
    allFixed (List.replicate n e) = true := by
  induction n with
  | zero => rfl
  | succ n ih => simp [List.replicate_succ, allFixed, h, ih]

theorem allValid_replicate (n : Nat) (e : Descr) (h : validDescr e = true) :
    allValid (List.replicate n e) = true := by
  induction n with
  | zero => rfl
  | succ n ih => simp [List.replicate_succ, allValid, h, ih]

theorem encodeFieldsF_lengths {enc : Descr → Value → Except Err (List Nat)}
    (P : ∀ d v bs, conforms d v = true → isFixedSize d = true → enc d v = .ok bs →
      bs.length = fixedByteLength d) :
    ∀ {ds : List Descr} {vs : List Value} {encs : List (List Nat)},
      conformsFields ds vs = true → encodeFieldsF enc ds vs = .ok encs →
      LenRel ds encs := by
  intro ds
  induction ds with
  | nil =>
    intro vs encs hc he
    cases vs with
    | nil =>
      simp only [encodeFieldsF, Except.ok.injEq] at he
      rw [← he]
      exact List.Forall₂.nil
    | cons v vs => simp [conformsFields] at hc
  | cons d ds ih =>
    intro vs encs hc he
    cases vs with
    | nil => simp [conformsFields] at hc
    | cons v vs =>
      simp only [conformsFields, Bool.and_eq_true] at hc
      simp only [encodeFieldsF] at he
      split at he
      · rename_i e hge
        split at he
        · rename_i rest hrest
          simp only [Except.ok.injEq] at he
          rw [← he]
          exact List.Forall₂.cons (fun hfx => P d v e hc.1 hfx hge) (ih hc.2 hrest)
        · exact absurd he (by simp)
      · exact absurd he (by simp)

end SSZ

namespace SSZ

theorem encodeF_fixed_length : ∀ (fuel : Nat) (d : Descr) (v : Value) (bs : List Nat),
    conforms d v = true → isFixedSize d = true → encodeF fuel d v = .ok bs →
    bs.length = fixedByteLength d := by
  intro fuel
  induction fuel with
  | zero => intro d v bs _ _ h; exact absurd h (by simp [encodeF])
  | succ fuel ih =>
    intro d v bs hconf hfx henc
    cases d with
    | basic w =>
      cases v with
      | basic w' x =>
        simp only [encodeF, Except.ok.injEq] at henc
        rw [← henc, leBytes_length]
        rfl
      | vector vs => simp [conforms] at hconf
      | list vs => simp [conforms] at hconf
      | bitvector bs' => simp [conforms] at hconf
      | bitlist bs' => simp [conforms] at hconf
      | container vs => simp [conforms] at hconf
    | vector e n =>
      cases v with
      | basic w' x => simp [conforms] at hconf
      | vector vs =>
        simp only [conforms, Bool.and_eq_true, beq_iff_eq] at hconf
        obtain ⟨hlen, hseq⟩ := hconf
        simp only [isFixedSize] at hfx
        simp only [encodeF] at henc
        obtain ⟨encs, fp, hencs, hfp, hbytes⟩ := encodeItems_ok henc
        have hlrel : LenRel (List.replicate vs.length e) encs :=
          encodeFieldsF_lengths (fun d' v' bs' hc' hf' he' => ih d' v' bs' hc' hf' he')
            (by rw [conformsFields_replicate]; exact hseq) hencs
        have hsum := items_sum_eq_sumSlotLens hlrel
        have hfplen := fixedPartOut_length _ _ _ hfp
        have hvarnil : varPart (fieldItems (List.replicate vs.length e) encs) = [] :=
          varOffsets_nil_varPart _ 0 (varOffsets_allFixed _ encs 0 (allFixed_replicate _ _ hfx))
        rw [hbytes, List.length_append, hvarnil]
        simp only [List.length_nil, Nat.add_zero]
        rw [hfplen, hsum, sumSlotLens_replicate, hlen]
        simp only [fixedByteLength, slotLen, hfx, if_true]
      | list vs => simp [conforms] at hconf
      | bitvector bs' => simp [conforms] at hconf
      | bitlist bs' => simp [conforms] at hconf
      | container vs => simp [conforms] at hconf
    | list e cap => simp [isFixedSize] at hfx
    | bitvector n =>
      cases v with
      | basic w' x => simp [conforms] at hconf
      | vector vs => simp [conforms] at hconf
      | list vs => simp [conforms] at hconf
      | bitvector bs' =>
        simp only [conforms, beq_iff_eq] at hconf
        simp only [encodeF, Except.ok.injEq] at henc
        rw [← henc, packBits_length, hconf]
        rfl
      | bitlist bs' => simp [conforms] at hconf
      | container vs => simp [conforms] at hconf
    | bitlist cap => simp [isFixedSize] at hfx
    | container ds =>
      cases v with
      | basic w' x => simp [conforms] at hconf
      | vector vs => simp [conforms] at hconf
      | list vs => simp [conforms] at hconf
      | bitvector bs' => simp [conforms] at hconf
      | bitlist bs' => simp [conforms] at hconf
      | container cvs =>
        simp only [conforms] at hconf
        simp only [isFixedSize] at hfx
        simp only [encodeF] at henc
        obtain ⟨encs, fp, hencs, hfp, hbytes⟩ := encodeItems_ok henc
        have hlrel : LenRel ds encs :=
          encodeFieldsF_lengths (fun d' v' bs' hc' hf' he' => ih d' v' bs' hc' hf' he')
            hconf hencs
        have hsum := items_sum_eq_sumSlotLens hlrel
        have hfplen := fixedPartOut_length _ _ _ hfp
        have hvarnil : varPart (fieldItems ds encs) = [] :=
          varOffsets_nil_varPart _ 0 (varOffsets_allFixed ds encs 0 hfx)
        rw [hbytes, List.length_append, hvarnil]
        simp only [List.length_nil, Nat.add_zero]
        rw [hfplen, hsum, sumSlotLens_allFixed ds hfx]
        rfl

end SSZ

namespace SSZ

theorem encodeFieldsF_fieldRel (fuel : Nat)
    (IH : ∀ d v bs, validDescr d = true → conforms d v = true → encodeF fuel d v = .ok bs →
      decodeF fuel bs d = .ok v) :
    ∀ {ds : List Descr} {vs : List Value} {encs : List (List Nat)},
      allValid ds = true → conformsFields ds vs = true →
      encodeFieldsF (encodeF fuel) ds vs = .ok encs →
      FieldRel (fun b d => decodeF fuel b d) ds vs encs := by
  intro ds
  induction ds with
  | nil =>
    intro vs encs hv hc he
    cases vs with
    | nil =>
      simp only [encodeFieldsF, Except.ok.injEq] at he
      rw [← he]
      exact FieldRel.nil
    | cons v vs => simp [conformsFields] at hc
  | cons d ds ih =>
    intro vs encs hv hc he
    cases vs with
    | nil => simp [conformsFields] at hc
    | cons v vs =>
      simp only [allValid, Bool.and_eq_true] at hv
      simp only [conformsFields, Bool.and_eq_true] at hc
      simp only [encodeFieldsF] at he
      split at he
      · rename_i e hge
        split at he
        · rename_i rest hrest
          simp only [Except.ok.injEq] at he
          rw [← he]
          exact FieldRel.cons (IH d v e hv.1 hc.1 hge)
            (fun hfx => encodeF_fixed_length fuel d v e hc.1 hfx hge)
            (ih hv.2 hc.2 hrest)
        · exact absurd he (by simp)
      · exact absurd he (by simp)

theorem encodeItems_decode (fuel : Nat)
    (IH : ∀ d v bs, validDescr d = true → conforms d v = true → encodeF fuel d v = .ok bs →
      decodeF fuel bs d = .ok v)
    {ds : List Descr} {vs : List Value} {bs : List Nat}
    (hall : allValid ds = true) (hcf : conformsFields ds vs = true)
    (henc : encodeItems (encodeF fuel) ds vs = .ok bs) :
    sumSlotLens ds ≤ bs.length ∧
    offsOk (readOffsets bs ds 0) (sumSlotLens ds) bs.length = true ∧
    decodeFieldsF (fun b d => decodeF fuel b d) bs ds 0 (readOffsets bs ds 0 ++ [bs.length])
      = .ok vs ∧
    (allFixed ds = true → bs.length = sumSlotLens ds ∧ readOffsets bs ds 0 = []) ∧
    (∀ d0 ds0, ds = d0 :: ds0 → isFixedSize d0 = false →
      fromLeBytes (takeSlice bs 0 4) = sumSlotLens ds) := by
  obtain ⟨encs, fp, hencs, hfp, hbytes⟩ := encodeItems_ok henc
  have hrel : FieldRel (fun b d => decodeF fuel b d) ds vs encs :=
    encodeFieldsF_fieldRel fuel IH hall hcf hencs
  have hlrel := FieldRel_lenRel hrel
  have hsum := items_sum_eq_sumSlotLens hlrel
  rw [hsum] at hfp
  have hfplen : fp.length = sumSlotLens ds := by
    rw [fixedPartOut_length _ _ _ hfp, hsum]
  have hblen : bs.length = sumSlotLens ds + (varPart (fieldItems ds encs)).length := by
    rw [hbytes, List.length_append, hfplen]
  have hdp : bs.drop 0 = fp ++ varPart (fieldItems ds encs) := by
    simpa using hbytes
  have hvp : bs.drop (sumSlotLens ds) = varPart (fieldItems ds encs) := by
    rw [hbytes, ← hfplen, List.drop_left]
  have hoffle : sumSlotLens ds ≤ bs.length := by omega
  have hro : readOffsets bs ds 0 = varOffsets (sumSlotLens ds) (fieldItems ds encs) :=
    readOffsets_eq hlrel bs fp (varPart (fieldItems ds encs)) 0 (sumSlotLens ds) hfp hdp
  refine ⟨hoffle, ?_, ?_, ?_, ?_⟩
  · rw [hro]
    exact offsOk_varOffsets _ _ _ hblen
  · rw [hro]
    exact decodeFieldsF_correct hrel bs fp _ 0 (sumSlotLens ds) hfp hdp hvp hoffle
  · intro hfix
    have hvnil : varOffsets (sumSlotLens ds) (fieldItems ds encs) = [] :=
      varOffsets_allFixed ds encs (sumSlotLens ds) hfix
    have hnil : varPart (fieldItems ds encs) = [] :=
      varOffsets_nil_varPart _ (sumSlotLens ds) hvnil
    constructor
    · rw [hblen, hnil]
      simp
    · rw [hro, hvnil]
  · intro d0 ds0 hds hfx0
    subst hds
    cases hrel with
    | @cons d v e dsr vsr esr hdec hlen hrest =>
      rw [fieldItems_cons, hfx0] at hro
      simp only [readOffsets, hfx0, Bool.false_eq_true, if_false, varOffsets] at hro
      exact ((List.cons.injEq _ _ _ _).mp hro).1

end SSZ

namespace SSZ

theorem roundtripF : ∀ (fuel : Nat) (d : Descr) (v : Value) (bs : List Nat),
    validDescr d = true → conforms d v = true → encodeF fuel d v = .ok bs →
    decodeF fuel bs d = .ok v := by
  intro fuel
  induction fuel with
  | zero => intro d v bs _ _ h; exact absurd h (by simp [encodeF])
  | succ fuel ih =>
    intro d v bs hval hconf henc
    cases d with
    | basic w =>
      cases v with
      | basic w' x =>
        simp only [conforms, Bool.and_eq_true, beq_iff_eq, decide_eq_true_eq] at hconf
        obtain ⟨hw, hx⟩ := hconf
        subst hw
        simp only [encodeF, Except.ok.injEq] at henc
        subst henc
        simp only [decodeF, leBytes_length, beq_self_eq_true, if_true]
        rw [fromLeBytes_leBytes w x hx]
      | vector vs => simp [conforms] at hconf
      | list vs => simp [conforms] at hconf
      | bitvector bsv => simp [conforms] at hconf
      | bitlist bsv => simp [conforms] at hconf
      | container cvs => simp [conforms] at hconf
    | vector e n =>
      cases v with
      | basic w' x => simp [conforms] at hconf
      | vector vs =>
        simp only [conforms, Bool.and_eq_true, beq_iff_eq] at hconf
        obtain ⟨hlen, hseq⟩ := hconf
        subst hlen
        simp only [validDescr] at hval
        simp only [encodeF] at henc
        obtain ⟨hle, hoffs, hdecf, hfixlen, _⟩ := encodeItems_decode fuel ih
          (allValid_replicate _ _ hval)
          (by rw [conformsFields_replicate]; exact hseq) henc
        cases hfxe : isFixedSize e with
        | true =>
          obtain ⟨hbl, hronil⟩ := hfixlen (allFixed_replicate _ _ hfxe)
          have hsl : sumSlotLens (List.replicate vs.length e)
              = vs.length * fixedByteLength e := by
            rw [sumSlotLens_replicate]
            simp [slotLen, hfxe]
          simp only [decodeF, hfxe, if_true]
          have hcond : (bs.length == vs.length * fixedByteLength e) = true := by
            rw [hbl, hsl]
            exact beq_self_eq_true _
          simp only [hcond, if_true]
          rw [hronil] at hdecf
          simp only [List.nil_append] at hdecf
          rw [hdecf]
        | false =>
          have hfl4 : sumSlotLens (List.replicate vs.length e) = 4 * vs.length := by
            rw [sumSlotLens_replicate]
            simp only [slotLen, hfxe, Bool.false_eq_true, if_false]
            ring
          simp only [decodeF, hfxe, Bool.false_eq_true, if_false]
          rw [if_neg (by rw [← hfl4]; omega)]
          have hoffs' : offsOk (readOffsets bs (List.replicate vs.length e) 0)
              (4 * vs.length) bs.length = true := by
            rw [← hfl4]
            exact hoffs
          simp only [hoffs', if_true]
          rw [hdecf]
      | list vs => simp [conforms] at hconf
      | bitvector bsv => simp [conforms] at hconf
      | bitlist bsv => simp [conforms] at hconf
      | container cvs => simp [conforms] at hconf
    | list e cap =>
      cases v with
      | basic w' x => simp [conforms] at hconf
      | vector vs => simp [conforms] at hconf
      | list vs =>
        simp only [conforms, Bool.and_eq_true, decide_eq_true_eq] at hconf
        obtain ⟨hcap, hseq⟩ := hconf
        simp only [validDescr, Bool.and_eq_true, Bool.or_eq_true, Bool.not_eq_true',
          decide_eq_true_eq] at hval
        obtain ⟨hvale, hvfix⟩ := hval
        simp only [encodeF] at henc
        rw [if_neg (by omega)] at henc
        obtain ⟨hle, hoffs, hdecf, hfixlen, hfirst⟩ := encodeItems_decode fuel ih
          (allValid_replicate _ _ hvale)
          (by rw [conformsFields_replicate]; exact hseq) henc
        cases hfxe : isFixedSize e with
        | true =>
          have hfblpos : 0 < fixedByteLength e := by
            rcases hvfix with hcontra | hpos
            · rw [hfxe] at hcontra
              exact absurd hcontra (by simp)
            · exact hpos
          obtain ⟨hbl, hronil⟩ := hfixlen (allFixed_replicate _ _ hfxe)
          have hsl : sumSlotLens (List.replicate vs.length e)
              = vs.length * fixedByteLength e := by
            rw [sumSlotLens_replicate]
            simp [slotLen, hfxe]
          simp only [decodeF, hfxe, if_true]
          have hmod : (bs.length % fixedByteLength e == 0) = true := by
            rw [hbl, hsl]
            simp [Nat.mul_mod_left]
          simp only [hmod, if_true]
          have hdiv : bs.length / fixedByteLength e = vs.length := by
            rw [hbl, hsl]
            exact Nat.mul_div_cancel _ hfblpos
          rw [hdiv, if_pos hcap]
          rw [hronil] at hdecf
          simp only [List.nil_append] at hdecf
          rw [hdecf]
        | false =>
          cases vs with
          | nil =>
            have hbs : bs = [] := by
              simp only [List.length_nil, List.replicate_zero, encodeItems, encodeFieldsF,
                serializeItems, fixedPartOut, varPart, List.map_nil, List.sum_nil,
                List.append_nil, Except.ok.injEq] at henc
              exact henc.symm
            subst hbs
            simp [decodeF, hfxe]
          | cons w vs' =>
            have hrep : List.replicate (w :: vs').length e
                = e :: List.replicate vs'.length e := by
              simp [List.replicate_succ]
            have hfl4 : sumSlotLens (List.replicate (w :: vs').length e)
                = 4 * (w :: vs').length := by
              rw [sumSlotLens_replicate]
              simp only [slotLen, hfxe, Bool.false_eq_true, if_false]
              ring
            have hfirst' : fromLeBytes (takeSlice bs 0 4)
                = sumSlotLens (List.replicate (w :: vs').length e) :=
              hfirst e (List.replicate vs'.length e) hrep hfxe
            have hlen4 : 4 ≤ sumSlotLens (List.replicate (w :: vs').length e) := by
              rw [hfl4]
              simp only [List.length_cons]
              omega
            have h4le : 4 ≤ bs.length := le_trans hlen4 hle
            simp only [decodeF, hfxe, Bool.false_eq_true, if_false]
            rw [if_neg (by simp only [beq_iff_eq]; omega)]
            rw [if_neg (by omega)]
            rw [hfirst']
            have hmod4 : (sumSlotLens (List.replicate (w :: vs').length e) % 4 == 0)
                = true := by
              rw [hfl4]
              simp [Nat.mul_mod_right]
            simp only [hmod4, if_true]
            have hdiv4 : sumSlotLens (List.replicate (w :: vs').length e) / 4
                = (w :: vs').length := by
              rw [hfl4]
              omega
            rw [hdiv4, if_pos hcap, if_neg (by omega)]
            simp only [hoffs, if_true]
            rw [hdecf]
      | bitvector bsv => simp [conforms] at hconf
      | bitlist bsv => simp [conforms] at hconf
      | container cvs => simp [conforms] at hconf
    | bitvector n =>
      cases v with
      | basic w' x => simp [conforms] at hconf
      | vector vs => simp [conforms] at hconf
      | list vs => simp [conforms] at hconf
      | bitvector bsv =>
        simp only [conforms, beq_iff_eq] at hconf
        simp only [encodeF, Except.ok.injEq] at henc
        subst henc
        subst hconf
        simp only [decodeF, packBits_length, beq_self_eq_true, if_true]
        rw [unpack_pack]
        rw [List.take_left]
      | bitlist bsv => simp [conforms] at hconf
      | container cvs => simp [conforms] at hconf
    | bitlist cap =>
      cases v with
      | basic w' x => simp [conforms] at hconf
      | vector vs => simp [conforms] at hconf
      | list vs => simp [conforms] at hconf
      | bitvector bsv => simp [conforms] at hconf
      | bitlist bsv =>
        simp only [conforms, decide_eq_true_eq] at hconf
        simp only [encodeF] at henc
        rw [if_neg (by omega)] at henc
        simp only [Except.ok.injEq] at henc
        subst henc
        simp only [decodeF]
        rw [unpack_pack, lastTrueIdx_append_falses, lastTrueIdx_snoc_true]
        simp only [hconf, ite_true, List.append_assoc, List.take_left]
      | container cvs => simp [conforms] at hconf
    | container ds =>
      cases v with
      | basic w' x => simp [conforms] at hconf
      | vector vs => simp [conforms] at hconf
      | list vs => simp [conforms] at hconf
      | bitvector bsv => simp [conforms] at hconf
      | bitlist bsv => simp [conforms] at hconf
      | container cvs =>
        simp only [conforms] at hconf
        simp only [validDescr] at hval
        simp only [encodeF] at henc
        obtain ⟨hle, hoffs, hdecf, hfixlen, _⟩ :=
          encodeItems_decode fuel ih hval hconf henc
        cases hAF : allFixed ds with
        | true =>
          obtain ⟨hbl, hronil⟩ := hfixlen hAF
          simp only [decodeF, hAF, if_true]
          have hcond : (bs.length == sumSlotLens ds) = true := by
            rw [hbl]
            exact beq_self_eq_true _
          simp only [hcond, if_true]
          rw [hronil] at hdecf
          simp only [List.nil_append] at hdecf
          rw [hdecf]
        | false =>
          simp only [decodeF, hAF, Bool.false_eq_true, if_false]
          rw [if_neg (by omega)]
          simp only [hoffs, if_true]
          rw [hdecf]

end SSZ

/-! ## Lemmas: capacity errors -/

namespace SSZ

theorem fixedPartOut_error : ∀ (items : List (Bool × List Nat)) (off : Nat) (er : Err),
    fixedPartOut items off = .error er → er = .offsetOverflow := by
  intro items
  induction items with
  | nil => intro off er h; simp [fixedPartOut] at h
  | cons it rest ih =>
    intro off er h
    obtain ⟨fx, e⟩ := it
    cases fx
    · simp only [fixedPartOut] at h
      split at h
      · split at h
        · simp at h
        · rename_i er' hr
          simp only [Except.error.injEq] at h
          subst h
          exact ih (off + e.length) er' hr
      · simp only [Except.error.injEq] at h
        exact h.symm
    · simp only [fixedPartOut] at h
      split at h
      · simp at h
      · rename_i er' hr
        simp only [Except.error.injEq] at h
        subst h
        exact ih off er' hr

theorem serializeItems_error (items : List (Bool × List Nat)) (er : Err)
    (h : serializeItems items = .error er) : er = .offsetOverflow := by
  simp only [serializeItems] at h
  split at h
  · simp at h
  · rename_i er' hr
    simp only [Except.error.injEq] at h
    subst h
    exact fixedPartOut_error _ _ _ hr

theorem encodeFieldsF_no_capacity {enc : Descr → Value → Except Err (List Nat)}
    (P : ∀ d v, conforms d v = true → enc d v ≠ .error .capacityExceeded) :
    ∀ (ds : List Descr) (vs : List Value), conformsFields ds vs = true →
      encodeFieldsF enc ds vs ≠ .error .capacityExceeded := by
  intro ds
  induction ds with
  | nil =>
    intro vs hc
    cases vs with
    | nil => simp [encodeFieldsF]
    | cons v vs => simp [conformsFields] at hc
  | cons d ds ih =>
    intro vs hc
    cases vs with
    | nil => simp [conformsFields] at hc
    | cons v vs =>
      simp only [conformsFields, Bool.and_eq_true] at hc
      intro h
      simp only [encodeFieldsF] at h
      split at h
      · rename_i e hge
        split at h
        · simp at h
        · rename_i er' hr
          simp only [Except.error.injEq] at h
          subst h
          exact ih vs hc.2 hr
      · rename_i er' hr
        simp only [Except.error.injEq] at h
        subst h
        exact P d v hc.1 hr

theorem encodeItems_no_capacity {enc : Descr → Value → Except Err (List Nat)}
    (P : ∀ d v, conforms d v = true → enc d v ≠ .error .capacityExceeded)
    (ds : List Descr) (vs : List Value) (hc : conformsFields ds vs = true) :
    encodeItems enc ds vs ≠ .error .capacityExceeded := by
  intro h
  simp only [encodeItems] at h
  split at h
  · rename_i encs hencs
    have := serializeItems_error _ _ h
    simp at this
  · rename_i er' hr
    simp only [Except.error.injEq] at h
    subst h
    exact encodeFieldsF_no_capacity P ds vs hc hr

theorem encodeF_no_capacity : ∀ (fuel : Nat) (d : Descr) (v : Value),
    conforms d v = true → encodeF fuel d v ≠ .error .capacityExceeded := by
  intro fuel
  induction fuel with
  | zero => intro d v _; simp [encodeF]
  | succ fuel ih =>
    intro d v hconf
    cases d with
    | basic w =>
      cases v <;> simp [encodeF]
    | vector e n =>
      cases v with
      | vector vs =>
        simp only [conforms, Bool.and_eq_true, beq_iff_eq] at hconf
        simp only [encodeF]
        exact encodeItems_no_capacity (fun d' v' hc' => ih d' v' hc') _ _
          (by rw [conformsFields_replicate]; exact hconf.2)
      | basic w x => simp [encodeF]
      | list vs => simp [encodeF]
      | bitvector bsv => simp [encodeF]
      | bitlist bsv => simp [encodeF]
      | container cvs => simp [encodeF]
    | list e cap =>
      cases v with
      | list vs =>
        simp only [conforms, Bool.and_eq_true, decide_eq_true_eq] at hconf
        simp only [encodeF]
        rw [if_neg (by omega)]
        exact encodeItems_no_capacity (fun d' v' hc' => ih d' v' hc') _ _
          (by rw [conformsFields_replicate]; exact hconf.2)
      | basic w x => simp [encodeF]
      | vector vs => simp [encodeF]
      | bitvector bsv => simp [encodeF]
      | bitlist bsv => simp [encodeF]
      | container cvs => simp [encodeF]
    | bitvector n =>
      cases v <;> simp [encodeF]
    | bitlist cap =>
      cases v with
      | bitlist bsv =>
        simp only [conforms, decide_eq_true_eq] at hconf
        simp only [encodeF]
        rw [if_neg (by omega)]
        simp
      | basic w x => simp [encodeF]
      | vector vs => simp [encodeF]
      | list vs => simp [encodeF]
      | bitvector bsv => simp [encodeF]
      | container cvs => simp [encodeF]
    | container ds =>
      cases v with
      | container cvs =>
        simp only [conforms] at hconf
        simp only [encodeF]
        exact encodeItems_no_capacity (fun d' v' hc' => ih d' v' hc') _ _ hconf
      | basic w x => simp [encodeF]
      | vector vs => simp [encodeF]
      | list vs => simp [encodeF]
      | bitvector bsv => simp [encodeF]
      | bitlist bsv => simp [encodeF]

end SSZ

/-! ## Claim theorems -/

namespace SSZ

/-- C1: for every value v conforming to a (well-formed) descriptor D,
decoding the encoding of v under D yields v with no error:
whenever encode succeeds, `decode (encode v D) D = ok v`. -/
theorem encode_decode_roundtrip (d : Descr) (v : Value) (bs : List Nat)
    (hval : validDescr d = true) (hconf : conforms d v = true)
    (henc : encode d v = .ok bs) : decode bs d = .ok v :=
  roundtripF (dsize d) d v bs hval hconf henc

/-- C1 witness: the round trip at a concrete List of Lists value. -/
theorem encode_decode_roundtrip_witness :
    decode [12, 0, 0, 0, 13, 0, 0, 0, 13, 0, 0, 0, 7, 8, 9]
      (.list (.list (.basic 1) 3) 5)
      = .ok (.list [.list [.basic 1 7], .list [], .list [.basic 1 8, .basic 1 9]]) :=
  encode_decode_roundtrip (.list (.list (.basic 1) 3) 5)
    (.list [.list [.basic 1 7], .list [], .list [.basic 1 8, .basic 1 9]])
    [12, 0, 0, 0, 13, 0, 0, 0, 13, 0, 0, 0, 7, 8, 9] rfl rfl rfl

/-- C2: decoding a variable-size container succeeds only if the recovered
4-byte offsets pass the validation (non-decreasing in field order, first
offset equal to the fixed-part length, all within the input whose end is
the last field's implied end); and when the validation fails on an input
long enough to hold the fixed part, the entire decode returns the
MalformedOffsetTable error and no partial result. -/
theorem decode_offsets_strict :
    (∀ (ds : List Descr) (bytes : List Nat) (v : Value), allFixed ds = false →
      decode bytes (.container ds) = .ok v →
      sumSlotLens ds ≤ bytes.length ∧
      offsOk (readOffsets bytes ds 0) (sumSlotLens ds) bytes.length = true) ∧
    (∀ (ds : List Descr) (bytes : List Nat), allFixed ds = false →
      sumSlotLens ds ≤ bytes.length →
      offsOk (readOffsets bytes ds 0) (sumSlotLens ds) bytes.length = false →
      decode bytes (.container ds) = .error .malformedOffsets) := by
  constructor
  · intro ds bytes v hAF hdec
    simp only [decode, dsize, decodeF, hAF, Bool.false_eq_true, if_false] at hdec
    split at hdec
    · exact absurd hdec (by simp)
    · rename_i hnlt
      split at hdec
      · rename_i hok
        exact ⟨by omega, hok⟩
      · exact absurd hdec (by simp)
  · intro ds bytes hAF hlen hbad
    simp only [decode, dsize, decodeF, hAF, Bool.false_eq_true, if_false]
    rw [if_neg (by omega), if_neg (by simp [hbad])]

/-- C2 witness: a container with one List field whose offset (5) differs
from the fixed-part length (4) is rejected as malformed. -/
theorem decode_offsets_strict_witness :
    decode [5, 0, 0, 0, 9] (.container [.list (.basic 1) 8])
      = .error .malformedOffsets :=
  decode_offsets_strict.2 [.list (.basic 1) 8] [5, 0, 0, 0, 9] rfl
    (by decide) (by decide)

/-- C3: encoding a List or Bitlist whose length exceeds its declared
capacity fails with CapacityExceeded (no truncated output accompanies the
error), and a value conforming to its descriptor (all lengths within
capacity, recursively) never produces a CapacityExceeded error. -/
theorem encode_capacity_exceeded :
    (∀ (e : Descr) (cap : Nat) (vs : List Value), cap < vs.length →
      encode (.list e cap) (.list vs) = .error .capacityExceeded) ∧
    (∀ (cap : Nat) (bs : List Bool), cap < bs.length →
      encode (.bitlist cap) (.bitlist bs) = .error .capacityExceeded) ∧
    (∀ (d : Descr) (v : Value), conforms d v = true →
      encode d v ≠ .error .capacityExceeded) := by
  refine ⟨?_, ?_, ?_⟩
  · intro e cap vs h
    simp only [encode, dsize, encodeF]
    rw [if_pos h]
  · intro cap bs h
    simp only [encode, dsize, encodeF]
    rw [if_pos h]
  · intro d v h
    exact encodeF_no_capacity (dsize d) d v h

/-- C3 witness: a 3-element List with capacity 2 fails. -/
theorem encode_capacity_exceeded_witness :
    encode (.list (.basic 1) 2) (.list [.basic 1 0, .basic 1 0, .basic 1 0])
      = .error .capacityExceeded :=
  encode_capacity_exceeded.1 (.basic 1) 2 [.basic 1 0, .basic 1 0, .basic 1 0]
    (by decide)

/-- C4: a Bitlist of length n within capacity encodes as the n data bits
packed low-bit-first followed by a sentinel bit at position n (one extra
byte when the sentinel does not fit), decode recovers exactly the original
n-bit value, an all-zero input has no sentinel and is rejected, and a
recovered length above the capacity is rejected. -/
theorem bitlist_sentinel :
    (∀ (cap : Nat) (bs : List Bool), bs.length ≤ cap →
      encode (.bitlist cap) (.bitlist bs) = .ok (packBits (bs ++ [true]))) ∧
    (∀ bs : List Bool,
      unpackBits (packBits (bs ++ [true]))
        = bs ++ true :: List.replicate ((8 - (bs.length + 1) % 8) % 8) false ∧
      (packBits (bs ++ [true])).length = (bs.length + 8) / 8) ∧
    (∀ (cap : Nat) (bs : List Bool), bs.length ≤ cap →
      decode (packBits (bs ++ [true])) (.bitlist cap) = .ok (.bitlist bs)) ∧
    (∀ (cap k : Nat), decode (List.replicate k 0) (.bitlist cap)
      = .error .invalidSentinel) ∧
    (∀ (cap n : Nat) (bytes : List Nat), lastTrueIdx (unpackBits bytes) = some n →
      cap < n → decode bytes (.bitlist cap) = .error .capacityExceeded) := by
  refine ⟨?_, ?_, ?_, ?_, ?_⟩
  · intro cap bs h
    simp only [encode, dsize, encodeF]
    rw [if_neg (by omega)]
  · intro bs
    constructor
    · rw [unpack_pack]
      simp [List.length_append]
    · rw [packBits_length]
      simp only [List.length_append, List.length_cons, List.length_nil]
  · intro cap bs h
    simp only [decode, dsize, decodeF]
    rw [unpack_pack, lastTrueIdx_append_falses, lastTrueIdx_snoc_true]
    simp only [h, ite_true, List.append_assoc, List.take_left]
  · intro cap k
    simp only [decode, dsize, decodeF, unpackBits_replicate_zero,
      lastTrueIdx_replicate_false]
  · intro cap n bytes hsent hlt
    simp only [decode, dsize, decodeF, hsent]
    rw [if_neg (by omega)]

/-- C4 witness: a Bitlist at full capacity (n = L = 3) round trips. -/
theorem bitlist_sentinel_witness :
    decode (packBits ([true, false, true] ++ [true])) (.bitlist 3)
      = .ok (.bitlist [true, false, true]) :=
  bitlist_sentinel.2.2.1 3 [true, false, true] (by decide)

/-- C5: the hash-tree-root of a List or Bitlist is the hash of the
capacity-shaped tree root concatenated with the current length as a
32-byte little-endian chunk, while Vectors, Bitvectors and Containers mix
in no length; the empty List of 4-byte integers with capacity 10 and the
same List holding one zero element have the same capacity-tree root but
different overall hash-tree-roots. -/
theorem hashTreeRoot_length_mixin :
    (∀ (e : Descr) (cap : Nat) (vs : List Value),
      hashTreeRoot (.list e cap) (.list vs)
        = .hash2 (seqRoot (htrF (dsize e) e) e vs cap)
            (.chunk (leBytes 32 vs.length))) ∧
    (∀ (cap : Nat) (bs : List Bool),
      hashTreeRoot (.bitlist cap) (.bitlist bs)
        = .hash2 (merkleize (chunkLeaves (packBits bs)) ((cap + 255) / 256))
            (.chunk (leBytes 32 bs.length))) ∧
    (∀ (e : Descr) (n : Nat) (vs : List Value),
      hashTreeRoot (.vector e n) (.vector vs) = seqRoot (htrF (dsize e) e) e vs n) ∧
    (∀ (n : Nat) (bs : List Bool),
      hashTreeRoot (.bitvector n) (.bitvector bs)
        = merkleize (chunkLeaves (packBits bs)) ((n + 255) / 256)) ∧
    (∀ (ds : List Descr) (vs : List Value),
      hashTreeRoot (.container ds) (.container vs)
        = merkleize (htrFields (htrF (dlsize ds)) ds vs) ds.length) ∧
    (seqRoot (htrF 1 (.basic 4)) (.basic 4) [] 10
      = seqRoot (htrF 1 (.basic 4)) (.basic 4) [.basic 4 0] 10) ∧
    hashTreeRoot u32list10 (.list [])
      ≠ hashTreeRoot u32list10 (.list [.basic 4 0]) := by
  refine ⟨?_, ?_, ?_, ?_, ?_, ?_, ?_⟩
  · intro e cap vs
    simp only [hashTreeRoot, dsize, htrF, mixInLength]
  · intro cap bs
    simp only [hashTreeRoot, dsize, htrF, mixInLength]
  · intro e n vs
    simp only [hashTreeRoot, dsize, htrF]
  · intro n bs
    simp only [hashTreeRoot, dsize, htrF]
  · intro ds vs
    simp only [hashTreeRoot, dsize, htrF]
  · decide
  · decide

/-- C6: the two-field scenario container (fixed 8-byte integer 5 and
List of bytes [1, 2, 3] with capacity 4) encodes to exactly the 15 bytes
05 00 00 00 00 00 00 00 | 0C 00 00 00 | 01 02 03, and decoding those
bytes reproduces the value exactly. -/
theorem scenario_encode_decode :
    encode scenarioD scenarioV = .ok scenarioBytes ∧
    decode scenarioBytes scenarioD = .ok scenarioV :=
  ⟨rfl, rfl⟩

/-- C7: hashTreeRoot is deterministic - repeated calls on the same value
and descriptor give the identical digest, and any two values equal under
the descriptor's (structural) equality produce identical roots; the model
is a pure function of the value and descriptor, with no buffer state. -/
theorem hashTreeRoot_deterministic (d : Descr) (v1 v2 : Value) (h : v1 = v2) :
    hashTreeRoot d v1 = hashTreeRoot d v1 ∧
    hashTreeRoot d v1 = hashTreeRoot d v2 :=
  ⟨rfl, by rw [h]⟩

/-- C7 witness: determinism at a concrete value. -/
theorem hashTreeRoot_deterministic_witness :
    hashTreeRoot u32list10 (.list [.basic 4 7]) = hashTreeRoot u32list10 (.list [.basic 4 7]) ∧
    hashTreeRoot u32list10 (.list [.basic 4 7]) = hashTreeRoot u32list10 (.list [.basic 4 7]) :=
  hashTreeRoot_deterministic u32list10 (.list [.basic 4 7]) (.list [.basic 4 7]) rfl

end SSZ

/-- C8 counterexample: with Out of length 0 and N = 1, Go's slice
expression `p.Out[p.N:]` is out of range and Write panics (modelled as
`none`) instead of returning a zero count with a nil error as the claim
states for every writer with len(Out) at most N. -/
theorem PreAllocatedWriter_Write_panic_case :
    PreAllocatedWriter.Write ⟨[], 1⟩ [7] = none := rfl

/-- C8 (amended): whenever N is at most len(Out), Write copies
min(len(data), len(Out)-N) bytes of data into Out at offset N, returns
that count (zero when len(Out) equals N) and a nil error, preserves N and
the buffer length, and repeating the same Write overwrites the same
region, leaving the writer unchanged, rather than appending. -/
theorem PreAllocatedWriter_Write_spec (p : PreAllocatedWriter) (data : List Nat)
    (h : p.N ≤ p.Out.length) :
    PreAllocatedWriter.Write p data
      = some (⟨p.Out.take p.N ++ data.take (min data.length (p.Out.length - p.N))
                ++ p.Out.drop (p.N + min data.length (p.Out.length - p.N)), p.N⟩,
              min data.length (p.Out.length - p.N), none) ∧
    (p.Out.length ≤ p.N → min data.length (p.Out.length - p.N) = 0) ∧
    (∀ q n err, PreAllocatedWriter.Write p data = some (q, n, err) →
      q.N = p.N ∧ err = none ∧ n = min data.length (p.Out.length - p.N) ∧
      q.Out.length = p.Out.length ∧
      PreAllocatedWriter.Write q data = some (q, n, err)) := by
  have hW : PreAllocatedWriter.Write p data
      = some (⟨p.Out.take p.N ++ data.take (min data.length (p.Out.length - p.N))
                ++ p.Out.drop (p.N + min data.length (p.Out.length - p.N)), p.N⟩,
              min data.length (p.Out.length - p.N), none) := by
    simp only [PreAllocatedWriter.Write, if_pos h]
  have hA : (p.Out.take p.N).length = p.N := by
    rw [List.length_take]
    omega
  have hm : min data.length (p.Out.length - p.N) ≤ data.length := by omega
  have hB : (data.take (min data.length (p.Out.length - p.N))).length
      = min data.length (p.Out.length - p.N) := by
    rw [List.length_take]
    omega
  have hmle : p.N + min data.length (p.Out.length - p.N) ≤ p.Out.length := by omega
  have hlen2 : (p.Out.take p.N ++ data.take (min data.length (p.Out.length - p.N))
      ++ p.Out.drop (p.N + min data.length (p.Out.length - p.N))).length
      = p.Out.length := by
    simp only [List.length_append, hA, hB, List.length_drop]
    omega
  refine ⟨hW, fun hle => by omega, ?_⟩
  intro q n err heq
  rw [hW] at heq
  simp only [Option.some.injEq, Prod.mk.injEq] at heq
  obtain ⟨hq, hn, herr⟩ := heq
  subst hq
  subst hn
  subst herr
  refine ⟨rfl, rfl, rfl, hlen2, ?_⟩
  have htakeeq : (p.Out.take p.N ++ data.take (min data.length (p.Out.length - p.N))
      ++ p.Out.drop (p.N + min data.length (p.Out.length - p.N))).take p.N
      = p.Out.take p.N := by
    rw [List.append_assoc]
    nth_rewrite 1 [← hA]
    exact List.take_left _ _
  have hAB : (p.Out.take p.N ++ data.take (min data.length (p.Out.length - p.N))).length
      = p.N + min data.length (p.Out.length - p.N) := by
    rw [List.length_append, hA, hB]
  have hdropeq : (p.Out.take p.N ++ data.take (min data.length (p.Out.length - p.N))
      ++ p.Out.drop (p.N + min data.length (p.Out.length - p.N))).drop
        (p.N + min data.length (p.Out.length - p.N))
      = p.Out.drop (p.N + min data.length (p.Out.length - p.N)) := by
    nth_rewrite 1 [← hAB]
    exact List.drop_left _ _
  simp only [PreAllocatedWriter.Write, hlen2, if_pos h, htakeeq, hdropeq]

/-- C9: Server.Feed always returns a non-nil feed pointer and a nil
error; it is idempotent per dynamic type - a repeated call with the same
type key returns the same pointer and leaves the server unchanged, the
first call for an absent type inserting a fresh feed into the map and a
call for a present type changing nothing. -/
theorem Server_Feed_spec (s : P2P.Server) (t : Nat) :
    (s.Feed t).2.1 ≠ none ∧
    (s.Feed t).2.2 = none ∧
    (∀ s1 f1 e1, s.Feed t = (s1, f1, e1) →
      s1.Feed t = (s1, f1, e1) ∧ s1.feeds.lookup t = f1) ∧
    (∀ f, s.feeds.lookup t = some f → s.Feed t = (s, some f, none)) ∧
    (s.feeds.lookup t = none →
      (s.Feed t).1.feeds = (t, s.nextPtr) :: s.feeds ∧
      (s.Feed t).2.1 = some s.nextPtr) := by
  cases hl : s.feeds.lookup t with
  | some f =>
    have hF : s.Feed t = (s, some f, none) := by
      simp [P2P.Server.Feed, hl]
    refine ⟨by rw [hF]; simp, by rw [hF], ?_, ?_, ?_⟩
    · intro s1 f1 e1 heq
      rw [hF] at heq
      simp only [Prod.mk.injEq] at heq
      obtain ⟨hs1, hf1, he1⟩ := heq
      subst hs1
      subst hf1
      subst he1
      exact ⟨hF, hl⟩
    · intro f' hf'
      simp only [Option.some.injEq] at hf'
      subst hf'
      exact hF
    · intro hn
      exact absurd hn (by simp)
  | none =>
    have hF : s.Feed t
        = (⟨(t, s.nextPtr) :: s.feeds, s.nextPtr + 1⟩, some s.nextPtr, none) := by
      simp [P2P.Server.Feed, hl]
    have hl2 : (((t, s.nextPtr) :: s.feeds) : List (Nat × Nat)).lookup t
        = some s.nextPtr := by
      simp [List.lookup]
    refine ⟨by rw [hF]; simp, by rw [hF], ?_, ?_, ?_⟩
    · intro s1 f1 e1 heq
      rw [hF] at heq
      simp only [Prod.mk.injEq] at heq
      obtain ⟨hs1, hf1, he1⟩ := heq
      subst hs1
      subst hf1
      subst he1
      constructor
      · simp [P2P.Server.Feed, hl2]
      · exact hl2
    · intro f' hf'
      exact absurd hf' (by simp)
    · intro _
      rw [hF]
      exact ⟨rfl, rfl⟩

/-- C9 witness: a server already holding feed 9 for type key 5 returns
that feed unchanged. -/
theorem Server_Feed_spec_witness :
    P2P.Server.Feed ⟨[(5, 9)], 10⟩ 5 = (⟨[(5, 9)], 10⟩, some 9, none) :=
  (Server_Feed_spec ⟨[(5, 9)], 10⟩ 5).2.2.2.1 9 (by decide)

/-- C10: MockValidatorRegistry.Limit is a constant function of its
receiver - every receiver, including the nil pointer, yields
beacon.VALIDATOR_REGISTRY_LIMIT, so the answer never depends on the
registry contents. -/
theorem MockValidatorRegistry_Limit_const :
    (∀ r : Option MockValidatorRegistry,
      MockValidatorRegistry.Limit r = VALIDATOR_REGISTRY_LIMIT) ∧
    MockValidatorRegistry.Limit none = VALIDATOR_REGISTRY_LIMIT ∧
    (∀ r1 r2 : Option MockValidatorRegistry,
      MockValidatorRegistry.Limit r1 = MockValidatorRegistry.Limit r2) :=
  ⟨fun _ => rfl, rfl, fun _ _ => rfl⟩

/-- C8 witness: a concrete in-range write copying two bytes at offset 1. -/
theorem PreAllocatedWriter_Write_spec_witness :
    PreAllocatedWriter.Write ⟨[0, 0, 0, 0], 1⟩ [7, 8]
      = some (⟨[0, 7, 8, 0], 1⟩, 2, none) := by
  have h := (PreAllocatedWriter_Write_spec ⟨[0, 0, 0, 0], 1⟩ [7, 8] (by decide)).1
  simpa using h
